import Mathlib

/-!
Verification of the Abaqus `.inp` editor (`grains/abaqus.py`).

The module edits line-oriented Abaqus input files.  Its core is a
keyword-block locator and round-trip rewriter: `Material.read` scans a file
line by line, classifies each line with regular expressions, records the
block range `[begin, end]` of the material section and extracts a
name -> behavior -> parameter-rows hierarchy; `Material.__format`
serializes the hierarchy back to lines and `Material.write` /
`Material.remove` splice the result into the original file's lines.
`Geometry` repeats the pattern for `*NODE` blocks and adds a coordinate
scaling transform.

Lines are embedded as `List Char` (one entry per physical line including
its trailing newline, exactly as Python's file iteration yields them).
Python dictionaries (which preserve insertion order) are embedded as
insertion-ordered association lists.  Exceptions are embedded as explicit
error values; where CPython mutates an object before raising, the model
returns the partially-mutated record together with the error.
-/

namespace Abaqus

/-- A physical line of the input file, as Python's file iteration yields it
(including the trailing newline when present). -/
abbrev Line := List Char

/-- One data row: the comma-separated fields of a data line. -/
abbrev Row := List (List Char)

/-- Behaviors of one material: insertion-ordered map from behavior name to
its parameter rows (Python: the inner dict of `Material.materials`). -/
abbrev BehaviorTable := List (List Char × List Row)

/-- The material hierarchy: insertion-ordered map from material name to its
behaviors (Python: `Material.materials`). -/
abbrev Materials := List (List Char × BehaviorTable)

/-- Python's `\s` on ASCII input: space, tab, newline, carriage return,
vertical tab, form feed. -/
def isSpaceCh (c : Char) : Bool :=
  c = ' ' || c = '\t' || c = '\n' || c = '\r' || c = '\x0b' || c = '\x0c'

/-- Python's `\w` on ASCII input: letters, digits and underscore. -/
def isWordChar (c : Char) : Bool :=
  c.isAlphanum || c = '_'

/-- Characters allowed in a captured material name: `[\w-]`. -/
def isNameChar (c : Char) : Bool :=
  isWordChar c || c = '-'

/-- Case-insensitive literal-prefix matcher: `matchPrefixCI pat l` models
`re.match` of the literal pattern `pat` (given in lowercase) against `l`
with `re.IGNORECASE`; on success it returns the rest of the line after the
matched prefix. -/
def matchPrefixCI : List Char → List Char → Option (List Char)
  | [], l => some l
  | _ :: _, [] => none
  | p :: ps, c :: cs => if c.toLower = p then matchPrefixCI ps cs else none

/-- The generic keyword-line test, regex `^\*\s?\w` (source line 207):
a star, an optional single whitespace character, then a word character. -/
def kwMatch (l : Line) : Bool :=
  match l with
  | '*' :: c :: rest =>
    if isWordChar c then true
    else if isSpaceCh c then
      match rest with
      | d :: _ => isWordChar d
      | [] => false
    else false
  | _ => false

/-- The comment-line test, regex `^[\s]?\*\*` (source line 210):
`**` possibly preceded by one whitespace character. -/
def commentMatch (l : Line) : Bool :=
  match l with
  | '*' :: '*' :: _ => true
  | c :: '*' :: '*' :: _ => isSpaceCh c
  | _ => false

/-- The material-start matcher, regex `\*material, name=([\w-]+)` with
`re.IGNORECASE` (source line 208): on success returns the captured group,
the maximal nonempty run of `[\w-]` characters after the literal prefix. -/
def materialMatch (l : Line) : Option (List Char) :=
  match matchPrefixCI ("*material, name=".data) l with
  | none => none
  | some rest =>
    let name := rest.takeWhile isNameChar
    if name = [] then none else some name

/-- The behavior-start matcher, regex `\*(plastic|elastic)` with
`re.IGNORECASE` (source line 209): on success returns the captured group as
it is written in the line. -/
def behaviorMatch (l : Line) : Option (List Char) :=
  match l with
  | '*' :: rest =>
    if (rest.take 7).map Char.toLower = "plastic".data then some (rest.take 7)
    else if (rest.take 7).map Char.toLower = "elastic".data then some (rest.take 7)
    else none
  | _ => none

/-- The node-start matcher, regex `\*node` with `re.IGNORECASE`
(source line 501). -/
def nodeMatch (l : Line) : Bool :=
  (matchPrefixCI ("*node".data) l).isSome

/-- Python's `str.split(',')`: always returns at least one field;
an empty string yields `[[]]`. -/
def splitComma : List Char → List (List Char)
  | [] => [[]]
  | c :: cs =>
    match splitComma cs with
    | f :: rest => if c = ',' then [] :: f :: rest else (c :: f) :: rest
    | [] => [[]]

/-- Python's `','.join(fields)`. -/
def joinComma : List (List Char) → List Char
  | [] => []
  | [f] => f
  | f :: rest => f ++ ',' :: joinComma rest

/-- Lookup in an insertion-ordered association list (Python dict read). -/
def alistGet {β : Type} (k : List Char) : List (List Char × β) → Option β
  | [] => none
  | (k', v) :: rest => if k' = k then some v else alistGet k rest

/-- Update in an insertion-ordered association list (Python dict write):
an existing key keeps its position, a new key is appended at the end. -/
def alistSet {β : Type} (k : List Char) (v : β) :
    List (List Char × β) → List (List Char × β)
  | [] => [(k, v)]
  | (k', v') :: rest =>
    if k' = k then (k, v) :: rest else (k', v') :: alistSet k v rest

/-- The keys of an association list, in insertion order. -/
def alistKeys {β : Type} (l : List (List Char × β)) : List (List Char) :=
  l.map (·.1)

/-- Errors raised by the embedded operations.  `sourceInvalid` models
`validate_file` rejecting a missing or empty input file; the `nameErr...`
and `keyErr...` constructors model the `NameError` / `KeyError` exceptions
CPython raises when `Material.read` meets out-of-order input
(`begin`, `material_name` or `behavior_name` unbound, missing dict key). -/
inductive ReadErr where
  | alreadyPopulated
  | sourceInvalid
  | nameErrMaterialName
  | nameErrBehaviorName
  | keyErrMaterial
  | keyErrBehavior
  | nameErrBeginVar
  deriving DecidableEq, Repr

/-- The loop-local state of `Material.read`'s scan (source lines 205-231):
the `in_material` flag, the accumulated `materials` dict, the loop-carried
locals `material_name` / `behavior_name` (None while still unbound) and the
`begin` local (None while still unbound). -/
structure MScan where
  in_material : Bool
  materials : Materials
  material_name : Option (List Char)
  behavior_name : Option (List Char)
  beginIdx : Option Nat
  deriving DecidableEq, Repr

/-- The scan state at loop entry. -/
def MScan.start : MScan := ⟨false, [], none, none, none⟩

/-- Outcome of processing one line: continue, break out of the loop with a
recorded `end` value, or raise. -/
inductive MStep where
  | cont (s : MScan)
  | brk (s : MScan) (e : Nat)
  | err (e : ReadErr)
  deriving DecidableEq, Repr

/-- One iteration of `Material.read`'s loop body (source lines 213-238),
with the same branch order as the Python `if`/`elif` chain:
material-start, behavior-start, material parameter, block-terminating
keyword or comment (the last only when `is_greedy`). -/
def materialLineStep (is_greedy : Bool) (s : MScan) (line_number : Nat)
    (line : Line) : MStep :=
  let is_generalkeyword := kwMatch line
  let is_comment := commentMatch line
  let is_parameter := !is_generalkeyword && !is_comment
  let is_material_param := is_parameter && s.in_material
  match materialMatch line with
  | some mname =>
    let s1 := if s.in_material then s
              else { s with in_material := true, beginIdx := some line_number }
    .cont { s1 with material_name := some mname,
                    materials := alistSet mname [] s1.materials }
  | none =>
    match behaviorMatch line with
    | some bname =>
      match s.material_name with
      | none => .err .nameErrMaterialName
      | some mn =>
        match alistGet mn s.materials with
        | none => .err .keyErrMaterial
        | some b =>
          .cont { s with behavior_name := some bname,
                         materials := alistSet mn (alistSet bname [] b) s.materials }
    | none =>
      if is_material_param then
        match s.material_name with
        | none => .err .nameErrMaterialName
        | some mn =>
          match s.behavior_name with
          | none => .err .nameErrBehaviorName
          | some bn =>
            match alistGet mn s.materials with
            | none => .err .keyErrMaterial
            | some b =>
              match alistGet bn b with
              | none => .err .keyErrBehavior
              | some r =>
                .cont { s with
                  materials := alistSet mn
                    (alistSet bn (r ++ [splitComma line.dropLast]) b) s.materials }
      else if (is_generalkeyword || is_comment) && s.in_material && is_greedy then
        .brk s (line_number - 1)
      else
        .cont s

/-- The scan loop of `Material.read` (source lines 213-240).  Returns the
final scan state and the recorded `end` value: the pre-break index minus
one on an early stop, the index of the last line processed otherwise
(for a nonempty suffix started at index `i` that is `i + length - 1`;
the `[]` equation's `i - 1` realizes exactly that). -/
def scanLines (is_greedy : Bool) : Nat → MScan → List Line →
    Except ReadErr (MScan × Nat)
  | i, s, [] => .ok (s, i - 1)
  | i, s, line :: rest =>
    match materialLineStep is_greedy s i line with
    | .err e => .error e
    | .brk s' e => .ok (s', e)
    | .cont s' => scanLines is_greedy (i + 1) s' rest

/-- The persistent state of a `Material` instance: the backing file path,
the `state` dict (`begin`, `end`, `read`) split into three fields, the
hierarchy, and the `is_greedy` flag set from `from_Abaqus`. -/
structure Material where
  inp_file : String
  stBegin : Option Nat
  stEnd : Option Nat
  stRead : Bool
  materials : Materials
  is_greedy : Bool
  deriving DecidableEq, Repr

/-- `Material.__init__(from_Abaqus)` (source lines 53-75). -/
def Material.init (from_Abaqus : Bool) : Material :=
  { inp_file := "", stBegin := none, stEnd := none, stRead := false,
    materials := [], is_greedy := from_Abaqus }

/-- `Material.add_material` (source lines 77-93): an existing name only
prints a notice and leaves the hierarchy unchanged. -/
def Material.add_material (m : Material) (material : List Char) : Material :=
  if (alistGet material m.materials).isSome then m
  else { m with materials := alistSet material [] m.materials }

/-- `Material.read` (source lines 201-245) on a file with content `lines`
at path `inp_file`.  Returns the instance after the call together with the
raised exception, if any.  Mutation order follows the source: on the
already-populated guard and on any exception inside the loop the instance
is untouched; when the loop finishes without ever binding `begin`
(no material-start line) the assignments `self.inp_file = inp_file` and
`self.materials = materials` (lines 241-242) have already executed when
line 243 raises `NameError` on `begin`, so those two fields are committed
while the `state` record is not. -/
def Material.read (m : Material) (inp_file : String) (lines : List Line) :
    Material × Option ReadErr :=
  if m.stRead then (m, some .alreadyPopulated)
  else if lines = [] then (m, some .sourceInvalid)
  else
    match scanLines m.is_greedy 0 .start lines with
    | .error e => (m, some e)
    | .ok (s, e) =>
      match s.beginIdx with
      | none => ({ m with inp_file := inp_file, materials := s.materials },
                 some .nameErrBeginVar)
      | some b => ({ m with inp_file := inp_file, materials := s.materials,
                            stBegin := some b, stEnd := some e, stRead := true },
                   none)

/-- `Material.__format` (source lines 363-390): serialize the hierarchy,
appending one line per material header, behavior header and parameter row,
in insertion order, exactly as the three nested Python loops do. -/
def formatBlock (materials : Materials) : List Line :=
  materials.foldl
    (fun acc mat =>
      mat.2.foldl
        (fun acc2 beh =>
          beh.2.foldl
            (fun acc3 parameter => acc3 ++ [joinComma parameter ++ ['\n']])
            (acc2 ++ [('*' :: beh.1) ++ ['\n']]))
        (acc ++ [("*Material, name=".data ++ mat.1) ++ ['\n']]))
    []

/-- Errors raised by `Material.write`: `emptyDatabase` is the guard of
source line 277; `invalidState` models the `TypeError` Python would raise
slicing with a never-recorded range (unreachable after a successful read). -/
inductive WriteErr where
  | emptyDatabase
  | invalidState
  deriving DecidableEq, Repr

/-- `Material.write` (source lines 247-304) restricted to its content
semantics: given the original file's lines, return the lines written to
the output file.  A read-backed database splices the serialized block into
the original lines (lines 279-290); a manually built database writes just
the serialized block (lines 291-303). -/
def Material.write (m : Material) (old : List Line) :
    Except WriteErr (List Line) :=
  if m.materials = [] then .error .emptyDatabase
  else if m.stRead then
    match m.stBegin, m.stEnd with
    | some b, some e => .ok (old.take b ++ formatBlock m.materials ++ old.drop (e + 1))
    | _, _ => .error .invalidState
  else .ok (formatBlock m.materials)

/-- `Material.remove` (source lines 322-351): read the file with a fresh
permissive instance, then write back the lines before and after the
recorded block with no replacement.  The inner `_, _` arm is unreachable:
a successful read always records the range. -/
def Material.remove (inp_file : String) (lines : List Line) :
    Except ReadErr (List Line) :=
  match Material.read (Material.init false) inp_file lines with
  | (a, none) =>
    match a.stBegin, a.stEnd with
    | some b, some e => .ok (lines.take b ++ lines.drop (e + 1))
    | _, _ => .ok lines
  | (_, some e) => .error e

/-- The loop-local state of `Geometry.read`'s scan (source lines 498-522):
the `in_node` flag, the accumulated `nodes` list and the `begin` local. -/
structure GScan where
  in_node : Bool
  nodes : List Row
  beginIdx : Option Nat
  deriving DecidableEq, Repr

/-- The geometry scan state at loop entry. -/
def GScan.start : GScan := ⟨false, [], none⟩

/-- Outcome of one `Geometry.read` loop iteration (no exception can be
raised inside this loop body). -/
inductive GStep where
  | cont (s : GScan)
  | brk (s : GScan) (e : Nat)
  deriving DecidableEq, Repr

/-- One iteration of `Geometry.read`'s loop body (source lines 504-522),
with the Python branch order: node-start (which unconditionally re-enters
the block and resets `begin`), node parameter, block-terminating keyword or
comment.  Unlike `Material.read` the terminating branch has no greedy-mode
conjunct: it always fires. -/
def geometryLineStep (s : GScan) (line_number : Nat) (line : Line) : GStep :=
  let is_generalkeyword := kwMatch line
  let is_node := nodeMatch line
  let is_comment := commentMatch line
  let is_parameter := !is_generalkeyword && !is_comment
  if is_node then
    .cont { s with in_node := true, beginIdx := some line_number }
  else if is_parameter && s.in_node then
    .cont { s with nodes := s.nodes ++ [splitComma line.dropLast] }
  else if (is_generalkeyword || is_comment) && s.in_node then
    .brk s (line_number - 1)
  else
    .cont s

/-- The scan loop of `Geometry.read` (source lines 504-524); `end` is
computed as in `scanLines`. -/
def scanNodeLines : Nat → GScan → List Line → GScan × Nat
  | i, s, [] => (s, i - 1)
  | i, s, line :: rest =>
    match geometryLineStep s i line with
    | .brk s' e => (s', e)
    | .cont s' => scanNodeLines (i + 1) s' rest

/-- The persistent state of a `Geometry` instance (source lines 435-438).
`Geometry.__init__` takes no mode flag: there is no `is_greedy` field. -/
structure Geometry where
  inp_file : String
  stBegin : Option Nat
  stEnd : Option Nat
  stRead : Bool
  nodes : List Row
  deriving DecidableEq, Repr

/-- `Geometry.__init__` (source lines 435-438). -/
def Geometry.init : Geometry :=
  { inp_file := "", stBegin := none, stEnd := none, stRead := false, nodes := [] }

/-- `Geometry.read` (source lines 440-529), with the same structure and
mutation order as `Material.read` (guard, validation, scan, and the
partial commit of `inp_file`/`nodes` before the `NameError` on an unbound
`begin`). -/
def Geometry.read (g : Geometry) (inp_file : String) (lines : List Line) :
    Geometry × Option ReadErr :=
  if g.stRead then (g, some .alreadyPopulated)
  else if lines = [] then (g, some .sourceInvalid)
  else
    let (s, e) := scanNodeLines 0 .start lines
    match s.beginIdx with
    | none => ({ g with inp_file := inp_file, nodes := s.nodes },
               some .nameErrBeginVar)
    | some b => ({ g with inp_file := inp_file, nodes := s.nodes,
                          stBegin := some b, stEnd := some e, stRead := true },
                 none)

/-- Value of a digit string (most significant digit first). -/
def digitsVal (l : List Char) : Nat :=
  l.foldl (fun a c => a * 10 + (c.toNat - 48)) 0

/-- Modelled: a CPython float whose value is an exact decimal fraction
`num / 10 ^ exp`.  On such values (all values appearing in this
development) CPython's parsing, multiplication and `str()` are exact, so
the shallow embedding uses exact decimal arithmetic instead of IEEE-754
doubles. -/
structure Dec where
  num : Int
  exp : Nat
  deriving DecidableEq, Repr

/-- Float multiplication on exact decimal fractions (exact, as the IEEE
product is whenever it is representable). -/
def Dec.mul (a b : Dec) : Dec := ⟨a.num * b.num, a.exp + b.exp⟩

/-- Modelled: Python's `float()` on an unsigned plain decimal literal
(`digits`, `digits.`, `.digits` or `digits.digits`).  Exponent, infinity
and NaN forms are outside the modelled fragment. -/
def parseUnsigned (s : List Char) : Option Dec :=
  let ip := s.takeWhile Char.isDigit
  let rest := s.dropWhile Char.isDigit
  match rest with
  | [] => if ip = [] then none else some ⟨digitsVal ip, 0⟩
  | '.' :: frac =>
    if frac.all Char.isDigit && !(ip = [] && frac = []) then
      some ⟨digitsVal ip * 10 ^ frac.length + digitsVal frac, frac.length⟩
    else none
  | _ => none

/-- Modelled: Python's `float()` on a plain decimal literal with optional
surrounding whitespace and optional sign.  `none` models the `ValueError`
raised on anything else. -/
def parseDec (s : List Char) : Option Dec :=
  let t := (((s.dropWhile isSpaceCh).reverse).dropWhile isSpaceCh).reverse
  match t with
  | '-' :: r => (parseUnsigned r).map (fun d => ⟨-d.num, d.exp⟩)
  | '+' :: r => parseUnsigned r
  | _ => parseUnsigned t

/-- Decimal digits of a natural number. -/
def natDigits (n : Nat) : List Char := Nat.toDigits 10 n

/-- Strip trailing decimal zeros: reduce `n / 10 ^ e` to lowest decimal
terms. -/
def stripZeros : Nat → Nat → Nat × Nat
  | n, 0 => (n, 0)
  | n, e + 1 => if n % 10 = 0 then stripZeros (n / 10) e else (n, e + 1)

/-- Modelled: Python's `str()` of a float whose value is an exact decimal
fraction: the shortest round-tripping representation, which for such
values is the exact decimal expansion with trailing zeros removed and at
least one fractional digit (`str(2.0) = "2.0"`, `str(0.5) = "0.5"`,
`str(1.25) = "1.25"`). -/
def pyFloatStr (d : Dec) : List Char :=
  let sign : List Char := if d.num < 0 then ['-'] else []
  let (m, e) := stripZeros d.num.natAbs d.exp
  if e = 0 then sign ++ natDigits m ++ '.' :: ['0']
  else
    let frac := natDigits (m % 10 ^ e)
    sign ++ natDigits (m / 10 ^ e) ++
      '.' :: (List.replicate (e - frac.length) '0' ++ frac)

/-- Error raised by `Geometry.scale`: the empty-geometry guard of source
line 548, and the `ValueError` of `float()` on an unparsable coordinate. -/
inductive ScaleErr where
  | emptyGeometry
  | valueErr
  deriving DecidableEq, Repr

/-- The inner loop of `Geometry.scale` (source lines 550-552) over
`node[1:]`: each coordinate field is replaced by a space followed by the
text of its value times `factor`.  Mutation is field by field, so on a
`ValueError` the already-processed fields keep their new value and the
rest stay unchanged; the flag reports whether all fields parsed. -/
def scaleCoords (factor : Dec) : List (List Char) → List (List Char) × Bool
  | [] => ([], true)
  | c :: rest =>
    match parseDec c with
    | none => (c :: rest, false)
    | some q =>
      let (cs, ok) := scaleCoords factor rest
      ((' ' :: pyFloatStr (Dec.mul q factor)) :: cs, ok)

/-- One row of `Geometry.scale`: field 0, the node identifier, is skipped
(`enumerate(node[1:], 1)`), the remaining fields are scaled. -/
def scaleRow (factor : Dec) : Row → Row × Bool
  | [] => ([], true)
  | n0 :: coords =>
    let (cs, ok) := scaleCoords factor coords
    (n0 :: cs, ok)

/-- The outer loop of `Geometry.scale` over the rows, stopping at the first
row whose scaling raises (later rows keep their old value). -/
def scaleRows (factor : Dec) : List Row → List Row × Bool
  | [] => ([], true)
  | r :: rs =>
    let (r', ok) := scaleRow factor r
    if ok then
      let (rs', ok') := scaleRows factor rs
      (r' :: rs', ok')
    else (r' :: rs, false)

/-- `Geometry.scale` (source lines 531-552): empty-geometry guard, then
in-place scaling of every coordinate of every node row. -/
def Geometry.scale (g : Geometry) (factor : Dec) : Geometry × Option ScaleErr :=
  if g.nodes = [] then (g, some .emptyGeometry)
  else
    let (rows, ok) := scaleRows factor g.nodes
    ({ g with nodes := rows }, if ok then none else some .valueErr)

/-- Concatenated image of a list under a list-valued function. -/
def concatMap {α β : Type} (f : α → List β) : List α → List β
  | [] => []
  | a :: l => f a ++ concatMap f l

/-- The serialized form of one parameter row: fields joined by commas,
then a newline. -/
def rowLine (r : Row) : Line := joinComma r ++ ['\n']

/-- The serialized form of one behavior: its header line followed by one
line per parameter row. -/
def behLines (b : List Char × List Row) : List Line :=
  ('*' :: b.1 ++ ['\n']) :: b.2.map rowLine

/-- The serialized form of one material: its header line followed by its
serialized behaviors. -/
def matLines (m : List Char × BehaviorTable) : List Line :=
  ("*Material, name=".data ++ m.1 ++ ['\n']) :: concatMap behLines m.2

/-- The serializer as the specification states it: per material, in
insertion order, one `*Material, name=<name>` line, one `*<BehaviorName>`
line per behavior, one comma-joined line per row; empty hierarchy gives an
empty sequence. -/
def serializeSpec (materials : Materials) : List Line :=
  concatMap matLines materials

/-- A parameter row is round-trip safe when its serialized line is
classified as a data line (no classifier fires on it) and comma-splitting
undoes comma-joining. -/
def WFrow (r : Row) : Prop :=
  kwMatch (rowLine r) = false ∧ commentMatch (rowLine r) = false ∧
  materialMatch (rowLine r) = none ∧ behaviorMatch (rowLine r) = none ∧
  splitComma (joinComma r) = r

instance (r : Row) : Decidable (WFrow r) := by unfold WFrow; infer_instance

/-- A behavior entry is round-trip safe when its serialized header parses
back to exactly its name (and not as a material header) and all its rows
are round-trip safe. -/
def WFbehavior (bn : List Char) (rows : List Row) : Prop :=
  behaviorMatch ('*' :: bn ++ ['\n']) = some bn ∧
  materialMatch ('*' :: bn ++ ['\n']) = none ∧
  ∀ r ∈ rows, WFrow r

instance (bn : List Char) (rows : List Row) : Decidable (WFbehavior bn rows) := by
  unfold WFbehavior; infer_instance

/-- A material entry is round-trip safe when its serialized header parses
back to exactly its name, its behavior names are distinct, and all its
behaviors are round-trip safe. -/
def WFmaterial (mn : List Char) (bs : BehaviorTable) : Prop :=
  materialMatch ("*Material, name=".data ++ mn ++ ['\n']) = some mn ∧
  (alistKeys bs).Nodup ∧
  ∀ b ∈ bs, WFbehavior b.1 b.2

instance (mn : List Char) (bs : BehaviorTable) : Decidable (WFmaterial mn bs) := by
  unfold WFmaterial; infer_instance

/-- A hierarchy is round-trip safe (the formal content of the
specification's "well-formed") when its material names are distinct and
every entry is round-trip safe. -/
def WFhier (materials : Materials) : Prop :=
  (alistKeys materials).Nodup ∧ ∀ m ∈ materials, WFmaterial m.1 m.2

instance (materials : Materials) : Decidable (WFhier materials) := by
  unfold WFhier; infer_instance

/-- Re-extraction of a hierarchy from a standalone block of lines: the
scan loop of `Material.read` started on fresh state, projected to the
materials it collects. -/
def blockExtract (is_greedy : Bool) (lines : List Line) :
    Except ReadErr Materials :=
  (scanLines is_greedy 0 .start lines).map (fun p => p.1.materials)

theorem dropLast_append_single {α : Type} (l : List α) (c : α) :
    (l ++ [c]).dropLast = l := by
  induction l with
  | nil => rfl
  | cons a t ih =>
    cases t with
    | nil => rfl
    | cons b t' => simpa using ih

theorem foldl_append_map {α β : Type} (f : α → β) :
    ∀ (l : List α) (acc : List β),
      l.foldl (fun a x => a ++ [f x]) acc = acc ++ l.map f
  | [], acc => by simp
  | x :: l, acc => by
    rw [List.foldl_cons, foldl_append_map f l]
    simp

theorem formatBlock_behaviors (bs : BehaviorTable) :
    ∀ acc : List Line,
      bs.foldl
        (fun acc2 beh =>
          beh.2.foldl
            (fun acc3 parameter => acc3 ++ [joinComma parameter ++ ['\n']])
            (acc2 ++ [('*' :: beh.1) ++ ['\n']]))
        acc = acc ++ concatMap behLines bs := by
  induction bs with
  | nil => intro acc; simp [concatMap]
  | cons b bs ih =>
    intro acc
    rw [List.foldl_cons, ih]
    have : ∀ (rows : List Row) (acc2 : List Line), rows.foldl
        (fun acc3 parameter => acc3 ++ [joinComma parameter ++ ['\n']]) acc2 =
        acc2 ++ rows.map rowLine := by
      intro rows acc2
      simpa [rowLine] using foldl_append_map rowLine rows acc2
    rw [this]
    simp [concatMap, behLines]

/-- The source serializer `Material.__format` agrees with the
specification-shaped serializer. -/
theorem formatBlock_eq_serializeSpec (materials : Materials) :
    formatBlock materials = serializeSpec materials := by
  suffices h : ∀ acc : List Line,
      materials.foldl
        (fun acc mat =>
          mat.2.foldl
            (fun acc2 beh =>
              beh.2.foldl
                (fun acc3 parameter => acc3 ++ [joinComma parameter ++ ['\n']])
                (acc2 ++ [('*' :: beh.1) ++ ['\n']]))
            (acc ++ [("*Material, name=".data ++ mat.1) ++ ['\n']]))
        acc = acc ++ serializeSpec materials by
    simpa [formatBlock] using h []
  induction materials with
  | nil => intro acc; simp [serializeSpec, concatMap]
  | cons m ms ih =>
    intro acc
    rw [List.foldl_cons, formatBlock_behaviors, ih]
    simp [serializeSpec, concatMap, matLines]

section AlistLemmas

variable {β : Type}

theorem alistGet_set_self (k : List Char) (v : β) :
    ∀ l : List (List Char × β), alistGet k (alistSet k v l) = some v := by
  intro l
  induction l with
  | nil => simp [alistGet, alistSet]
  | cons p rest ih =>
    by_cases h : p.1 = k
    · simp [alistSet, alistGet, h]
    · simp [alistSet, alistGet, h, ih]

theorem alistSet_set (k : List Char) (v w : β) :
    ∀ l : List (List Char × β), alistSet k v (alistSet k w l) = alistSet k v l := by
  intro l
  induction l with
  | nil => simp [alistSet]
  | cons p rest ih =>
    by_cases h : p.1 = k
    · simp [alistSet, h]
    · simp [alistSet, h, ih]

theorem alistSet_fresh (k : List Char) (v : β) :
    ∀ l : List (List Char × β), alistGet k l = none → alistSet k v l = l ++ [(k, v)] := by
  intro l
  induction l with
  | nil => simp [alistSet]
  | cons p rest ih =>
    intro h
    by_cases hk : p.1 = k
    · simp [alistGet, hk] at h
    · simp [alistGet, hk] at h
      simp [alistSet, hk, ih h]

theorem alistSet_self_eq (k : List Char) (v : β) :
    ∀ l : List (List Char × β), alistGet k l = some v → alistSet k v l = l := by
  intro l
  induction l with
  | nil => simp [alistGet]
  | cons p rest ih =>
    intro h
    by_cases hk : p.1 = k
    · obtain ⟨k0, v0⟩ := p
      simp only at hk
      subst hk
      simp [alistGet] at h
      simp [alistSet, h]
    · simp [alistGet, hk] at h
      simp [alistSet, hk, ih h]

theorem alistGet_append_none (k : List Char) :
    ∀ l1 l2 : List (List Char × β), alistGet k l1 = none →
      alistGet k (l1 ++ l2) = alistGet k l2 := by
  intro l1 l2
  induction l1 with
  | nil => simp
  | cons p rest ih =>
    intro h
    by_cases hk : p.1 = k
    · simp [alistGet, hk] at h
    · simp [alistGet, hk] at h ⊢
      exact ih h

theorem alistGet_single_ne (k k' : List Char) (v : β) (h : k' ≠ k) :
    alistGet k [(k', v)] = none := by
  simp [alistGet, h]

theorem alistGet_append_fresh (k : List Char) (v : β)
    (l : List (List Char × β)) (h : alistGet k l = none) :
    alistGet k (l ++ [(k, v)]) = some v := by
  rw [alistGet_append_none k l _ h]
  simp [alistGet]

theorem alistSet_append_fresh (k : List Char) (v w : β)
    (l : List (List Char × β)) (h : alistGet k l = none) :
    alistSet k v (l ++ [(k, w)]) = l ++ [(k, v)] := by
  rw [← alistSet_fresh k w l h, alistSet_set, alistSet_fresh k v l h]

end AlistLemmas

theorem scanLines_cons_cont (g : Bool) (i : Nat) (s s' : MScan) (line : Line)
    (rest : List Line) (h : materialLineStep g s i line = .cont s') :
    scanLines g i s (line :: rest) = scanLines g (i + 1) s' rest := by
  rw [scanLines, h]

theorem step_data_line (g : Bool) (M : Materials) (mn bn : List Char)
    (B : BehaviorTable) (R : List Row) (bIdx : Option Nat) (i : Nat) (r : Row)
    (hr : WFrow r) (hM : alistGet mn M = some B) (hB : alistGet bn B = some R) :
    materialLineStep g ⟨true, M, some mn, some bn, bIdx⟩ i (rowLine r) =
      .cont ⟨true, alistSet mn (alistSet bn (R ++ [r]) B) M, some mn, some bn, bIdx⟩ := by
  obtain ⟨hk, hc, hm, hb, hs⟩ := hr
  have hdrop : (rowLine r).dropLast = joinComma r := by
    rw [rowLine]
    exact dropLast_append_single (joinComma r) '\n'
  simp [materialLineStep, hm, hb, hk, hc, hM, hB, hdrop, hs]

theorem scan_rows (g : Bool) (mn bn : List Char) (rows : List Row) :
    ∀ (M : Materials) (B : BehaviorTable) (R : List Row)
      (bIdx : Option Nat) (i : Nat) (rest : List Line),
      (∀ r ∈ rows, WFrow r) → alistGet mn M = some B → alistGet bn B = some R →
      scanLines g i ⟨true, M, some mn, some bn, bIdx⟩ (rows.map rowLine ++ rest) =
        scanLines g (i + rows.length)
          ⟨true, alistSet mn (alistSet bn (R ++ rows) B) M, some mn, some bn, bIdx⟩
          rest := by
  induction rows with
  | nil =>
    intro M B R bIdx i rest _ hM hB
    simp [alistSet_self_eq bn R B hB, alistSet_self_eq mn B M hM]
  | cons r rs ih =>
    intro M B R bIdx i rest hw hM hB
    have hr : WFrow r := hw r (by simp)
    have hstep := step_data_line g M mn bn B R bIdx i r hr hM hB
    rw [List.map_cons, List.cons_append,
      scanLines_cons_cont g i _ _ _ _ hstep]
    have hM1 : alistGet mn (alistSet mn (alistSet bn (R ++ [r]) B) M) =
        some (alistSet bn (R ++ [r]) B) := alistGet_set_self mn _ M
    have hB1 : alistGet bn (alistSet bn (R ++ [r]) B) = some (R ++ [r]) :=
      alistGet_set_self bn _ B
    rw [ih _ _ _ bIdx (i + 1) rest (fun x hx => hw x (by simp [hx])) hM1 hB1]
    rw [alistSet_set bn, alistSet_set mn]
    have harr : (R ++ [r]) ++ rs = R ++ (r :: rs) := by simp
    have hidx : i + 1 + rs.length = i + (r :: rs).length := by
      simp [List.length_cons]; omega
    rw [harr, hidx]

theorem scan_one_behavior (g : Bool) (mn bn : List Char) (rows : List Row)
    (M : Materials) (B : BehaviorTable) (bn0 : Option (List Char))
    (bIdx : Option Nat) (i : Nat) (rest : List Line)
    (hw : WFbehavior bn rows) (hM : alistGet mn M = some B)
    (hfresh : alistGet bn B = none) :
    scanLines g i ⟨true, M, some mn, bn0, bIdx⟩ (behLines (bn, rows) ++ rest) =
      scanLines g (i + 1 + rows.length)
        ⟨true, alistSet mn (B ++ [(bn, rows)]) M, some mn, some bn, bIdx⟩ rest := by
  obtain ⟨hbm, hmm, hrows⟩ := hw
  have hstep : materialLineStep g ⟨true, M, some mn, bn0, bIdx⟩ i ('*' :: bn ++ ['\n']) =
      .cont ⟨true, alistSet mn (alistSet bn [] B) M, some mn, some bn, bIdx⟩ := by
    simp only [List.cons_append] at hmm hbm
    simp [materialLineStep, hmm, hbm, hM]
  rw [show behLines (bn, rows) = ('*' :: bn ++ ['\n']) :: rows.map rowLine from rfl]
  rw [List.cons_append, scanLines_cons_cont g i _ _ _ _ hstep]
  have hset : alistSet bn ([] : List Row) B = B ++ [(bn, [])] :=
    alistSet_fresh bn [] B hfresh
  rw [hset]
  have hM1 : alistGet mn (alistSet mn (B ++ [(bn, [])]) M) = some (B ++ [(bn, [])]) :=
    alistGet_set_self mn _ M
  have hB1 : alistGet bn (B ++ [(bn, [])]) = some [] :=
    alistGet_append_fresh bn [] B hfresh
  rw [scan_rows g mn bn rows _ _ _ bIdx (i + 1) rest hrows hM1 hB1]
  rw [alistSet_set mn]
  have h2 : alistSet bn ([] ++ rows) (B ++ [(bn, [])]) = B ++ [(bn, rows)] := by
    rw [List.nil_append]
    exact alistSet_append_fresh bn rows [] B hfresh
  rw [h2]

/-- Final value of the loop-local `behavior_name` after serializing a list
of behaviors. -/
def behFinal (bs : BehaviorTable) (b0 : Option (List Char)) : Option (List Char) :=
  bs.foldl (fun _ b => some b.1) b0

theorem scan_beh_list (g : Bool) (mn : List Char) (bs : BehaviorTable) :
    ∀ (M : Materials) (B : BehaviorTable) (bn0 : Option (List Char))
      (bIdx : Option Nat) (i : Nat) (rest : List Line),
      (∀ b ∈ bs, WFbehavior b.1 b.2) → (alistKeys bs).Nodup →
      (∀ k ∈ alistKeys bs, alistGet k B = none) →
      alistGet mn M = some B →
      scanLines g i ⟨true, M, some mn, bn0, bIdx⟩ (concatMap behLines bs ++ rest) =
        scanLines g (i + (concatMap behLines bs).length)
          ⟨true, alistSet mn (B ++ bs) M, some mn, behFinal bs bn0, bIdx⟩ rest := by
  induction bs with
  | nil =>
    intro M B bn0 bIdx i rest _ _ _ hM
    simp [concatMap, behFinal, alistSet_self_eq mn B M hM]
  | cons b bs ih =>
    intro M B bn0 bIdx i rest hw hnd hfresh hM
    obtain ⟨bn, rows⟩ := b
    have hwb : WFbehavior bn rows := hw (bn, rows) (by simp)
    have hbn_fresh : alistGet bn B = none := by
      apply hfresh
      simp [alistKeys]
    rw [show concatMap behLines ((bn, rows) :: bs) =
      behLines (bn, rows) ++ concatMap behLines bs from rfl]
    rw [List.append_assoc,
      scan_one_behavior g mn bn rows M B bn0 bIdx i _ hwb hM hbn_fresh]
    have hnd0 := List.nodup_cons.mp (show ((bn :: alistKeys bs).Nodup) by
      simpa [alistKeys] using hnd)
    have hnd' : (alistKeys bs).Nodup := hnd0.2
    have hbn_not : bn ∉ alistKeys bs := hnd0.1
    have hfresh' : ∀ k ∈ alistKeys bs, alistGet k (B ++ [(bn, rows)]) = none := by
      intro k hk
      have hkB : alistGet k B = none := by
        apply hfresh
        simp [alistKeys] at hk ⊢
        exact Or.inr hk
      rw [alistGet_append_none k B _ hkB]
      exact alistGet_single_ne k bn rows (fun h => hbn_not (h ▸ hk))
    have hM1 : alistGet mn (alistSet mn (B ++ [(bn, rows)]) M) =
        some (B ++ [(bn, rows)]) := alistGet_set_self mn _ M
    rw [ih _ _ (some bn) bIdx (i + 1 + rows.length) rest
      (fun x hx => hw x (by simp [hx])) hnd' hfresh' hM1]
    rw [alistSet_set mn]
    have harr : (B ++ [(bn, rows)]) ++ bs = B ++ ((bn, rows) :: bs) := by simp
    rw [harr]
    have hbf : behFinal ((bn, rows) :: bs) bn0 = behFinal bs (some bn) := by
      simp [behFinal]
    rw [hbf]
    have hidx : i + 1 + rows.length + (concatMap behLines bs).length =
        i + (concatMap behLines ((bn, rows) :: bs)).length := by
      simp [concatMap, behLines]
      omega
    rw [hidx]
    rfl

theorem scan_one_material (g : Bool) (mn : List Char) (bs : BehaviorTable)
    (M : Materials) (inm : Bool) (mn0 bn0 : Option (List Char))
    (bIdx : Option Nat) (i : Nat) (rest : List Line)
    (hw : WFmaterial mn bs) (hfresh : alistGet mn M = none) :
    scanLines g i ⟨inm, M, mn0, bn0, bIdx⟩ (matLines (mn, bs) ++ rest) =
      scanLines g (i + (matLines (mn, bs)).length)
        ⟨true, M ++ [(mn, bs)], some mn, behFinal bs bn0,
          if inm then bIdx else some i⟩ rest := by
  obtain ⟨hmm, hnd, hws⟩ := hw
  have hstep : materialLineStep g ⟨inm, M, mn0, bn0, bIdx⟩ i
      ("*Material, name=".data ++ mn ++ ['\n']) =
      .cont ⟨true, alistSet mn [] M, some mn, bn0,
        if inm then bIdx else some i⟩ := by
    cases inm <;> (unfold materialLineStep; rw [hmm]; rfl)
  rw [show matLines (mn, bs) =
    ("*Material, name=".data ++ mn ++ ['\n']) :: concatMap behLines bs from rfl]
  rw [List.cons_append, scanLines_cons_cont g i _ _ _ _ hstep]
  have hset : alistSet mn ([] : BehaviorTable) M = M ++ [(mn, [])] :=
    alistSet_fresh mn [] M hfresh
  rw [hset]
  have hM1 : alistGet mn (M ++ [(mn, [])]) = some [] :=
    alistGet_append_fresh mn [] M hfresh
  have hfresh1 : ∀ k ∈ alistKeys bs, alistGet k ([] : BehaviorTable) = none := by
    intro k _
    rfl
  rw [scan_beh_list g mn bs _ _ bn0 _ (i + 1) rest hws hnd hfresh1 hM1]
  have h2 : alistSet mn ([] ++ bs) (M ++ [(mn, [])]) = M ++ [(mn, bs)] := by
    rw [List.nil_append]
    exact alistSet_append_fresh mn bs [] M hfresh
  rw [h2]
  have hidx : i + 1 + (concatMap behLines bs).length =
      i + (matLines (mn, bs)).length := by
    simp [matLines]
    omega
  rw [hidx]
  rfl

/-- Final value of the loop-local `material_name` after serializing a list
of materials. -/
def matFinalName (materials : Materials) (m0 : Option (List Char)) :
    Option (List Char) :=
  materials.foldl (fun _ m => some m.1) m0

/-- Final value of the loop-local `behavior_name` after serializing a list
of materials. -/
def matFinalBeh (materials : Materials) (b0 : Option (List Char)) :
    Option (List Char) :=
  materials.foldl (fun acc m => behFinal m.2 acc) b0

/-- Final value of the `begin` local after serializing a list of materials
starting at index `i`. -/
def matFinalBegin (materials : Materials) (inm : Bool) (bIdx : Option Nat)
    (i : Nat) : Option Nat :=
  if inm then bIdx else
    match materials with
    | [] => bIdx
    | _ => some i

theorem scan_mat_list (g : Bool) (H : Materials) :
    ∀ (M : Materials) (inm : Bool) (mn0 bn0 : Option (List Char))
      (bIdx : Option Nat) (i : Nat) (rest : List Line),
      (∀ m ∈ H, WFmaterial m.1 m.2) → (alistKeys H).Nodup →
      (∀ k ∈ alistKeys H, alistGet k M = none) →
      scanLines g i ⟨inm, M, mn0, bn0, bIdx⟩ (serializeSpec H ++ rest) =
        scanLines g (i + (serializeSpec H).length)
          ⟨inm || !H.isEmpty, M ++ H, matFinalName H mn0, matFinalBeh H bn0,
            matFinalBegin H inm bIdx i⟩ rest := by
  induction H with
  | nil =>
    intro M inm mn0 bn0 bIdx i rest _ _ _
    simp [serializeSpec, concatMap, matFinalName, matFinalBeh, matFinalBegin]
  | cons m ms ih =>
    intro M inm mn0 bn0 bIdx i rest hw hnd hfresh
    obtain ⟨mn, bs⟩ := m
    have hwm : WFmaterial mn bs := hw (mn, bs) (by simp)
    have hmn_fresh : alistGet mn M = none := by
      apply hfresh
      simp [alistKeys]
    rw [show serializeSpec ((mn, bs) :: ms) =
      matLines (mn, bs) ++ serializeSpec ms from rfl]
    rw [List.append_assoc,
      scan_one_material g mn bs M inm mn0 bn0 bIdx i _ hwm hmn_fresh]
    have hnd0 := List.nodup_cons.mp (show ((mn :: alistKeys ms).Nodup) by
      simpa [alistKeys] using hnd)
    have hfresh' : ∀ k ∈ alistKeys ms, alistGet k (M ++ [(mn, bs)]) = none := by
      intro k hk
      have hkM : alistGet k M = none := by
        apply hfresh
        simp [alistKeys] at hk ⊢
        exact Or.inr hk
      rw [alistGet_append_none k M _ hkM]
      exact alistGet_single_ne k mn bs (fun h => hnd0.1 (h ▸ hk))
    rw [ih _ true (some mn) (behFinal bs bn0) _ (i + (matLines (mn, bs)).length)
      rest (fun x hx => hw x (by simp [hx])) hnd0.2 hfresh']
    have harr : (M ++ [(mn, bs)]) ++ ms = M ++ ((mn, bs) :: ms) := by simp
    rw [harr]
    have hfn : matFinalName ms (some mn) = matFinalName ((mn, bs) :: ms) mn0 := by
      simp [matFinalName]
    have hfb : matFinalBeh ms (behFinal bs bn0) = matFinalBeh ((mn, bs) :: ms) bn0 := by
      simp [matFinalBeh]
    rw [hfn, hfb]
    have hbg : matFinalBegin ms true (if inm then bIdx else some i)
        (i + (matLines (mn, bs)).length) =
        matFinalBegin ((mn, bs) :: ms) inm bIdx i := by
      simp [matFinalBegin]
    rw [hbg]
    have hidx : i + (matLines (mn, bs)).length + (serializeSpec ms).length =
        i + (serializeSpec ((mn, bs) :: ms)).length := by
      rw [show serializeSpec ((mn, bs) :: ms) =
        matLines (mn, bs) ++ serializeSpec ms from rfl]
      simp
      omega
    rw [hidx]
    have hin : (true || !ms.isEmpty) = (inm || !(((mn, bs) :: ms) : Materials).isEmpty) := by
      simp [List.isEmpty]
    rw [hin]
    rfl

/-- Re-extracting the hierarchy from its own serialized block recovers it
exactly, in either parsing mode. -/
theorem blockExtract_serializeSpec (H : Materials) (hw : WFhier H)
    (g : Bool) : blockExtract g (serializeSpec H) = .ok H := by
  obtain ⟨hnd, hws⟩ := hw
  have h := scan_mat_list g H [] false none none none 0 [] hws hnd
    (fun k _ => rfl)
  rw [List.append_nil] at h
  rw [blockExtract, MScan.start, h]
  rfl

/-- Index of the first line matching the material-start pattern. -/
def firstMatIdx : List Line → Option Nat
  | [] => none
  | l :: ls =>
    if (materialMatch l).isSome then some 0 else (firstMatIdx ls).map (· + 1)

theorem step_brk_inv (g : Bool) (s s' : MScan) (i e : Nat) (line : Line)
    (h : materialLineStep g s i line = .brk s' e) :
    s' = s ∧ e = i - 1 ∧ s.in_material = true ∧ g = true := by
  unfold materialLineStep at h
  simp only [] at h
  repeat' split at h
  all_goals simp_all [Bool.and_eq_true]

theorem step_cont_begin (g : Bool) (s s' : MScan) (i : Nat) (line : Line)
    (hin : s.in_material = true)
    (h : materialLineStep g s i line = .cont s') :
    s'.beginIdx = s.beginIdx ∧ s'.in_material = true := by
  unfold materialLineStep at h
  rw [hin] at h
  simp only [] at h
  repeat' split at h
  all_goals simp_all
  all_goals (rw [← h]; simp [hin])

theorem step_inert (g : Bool) (s : MScan) (i : Nat) (line : Line)
    (hin : s.in_material = false) (hmt : materialMatch line = none)
    (hbt : behaviorMatch line = none) :
    materialLineStep g s i line = .cont s := by
  unfold materialLineStep
  rw [hmt, hbt, hin]
  simp

theorem scan_begin_preserved (g : Bool) (lines : List Line) :
    ∀ (i : Nat) (s s' : MScan) (e : Nat), s.in_material = true →
      scanLines g i s lines = .ok (s', e) → s'.beginIdx = s.beginIdx := by
  induction lines with
  | nil =>
    intro i s s' e hin h
    rw [scanLines] at h
    cases h
    rfl
  | cons line ls ih =>
    intro i s s' e hin h
    rw [scanLines] at h
    cases hstep : materialLineStep g s i line with
    | err e2 => rw [hstep] at h; cases h
    | brk s2 e2 =>
      rw [hstep] at h
      cases h
      exact congrArg MScan.beginIdx (step_brk_inv g s _ i _ line hstep).1
    | cont s2 =>
      rw [hstep] at h
      obtain ⟨hb, hi⟩ := step_cont_begin g s s2 i line hin hstep
      rw [← hb]
      exact ih (i + 1) s2 s' e hi h

theorem scan_fresh_begin (g : Bool) (lines : List Line) :
    ∀ (i : Nat) (s s' : MScan) (e : Nat),
      s.in_material = false → s.beginIdx = none → s.material_name = none →
      scanLines g i s lines = .ok (s', e) →
      s'.beginIdx = (firstMatIdx lines).map (i + ·) := by
  induction lines with
  | nil =>
    intro i s s' e _ hb _ h
    rw [scanLines] at h
    cases h
    simp [firstMatIdx, hb]
  | cons line ls ih =>
    intro i s s' e hin hb hmn h
    rw [scanLines] at h
    cases hmt : materialMatch line with
    | some mname =>
      have hstep : materialLineStep g s i line =
          .cont { s with in_material := true, beginIdx := some i,
                         material_name := some mname,
                         materials := alistSet mname [] s.materials } := by
        unfold materialLineStep
        rw [hmt, hin]
        rfl
      rw [hstep] at h
      have hpres := scan_begin_preserved g ls (i + 1) _ s' e (by rfl) h
      rw [hpres]
      simp [firstMatIdx, hmt]
    | none =>
      cases hbt : behaviorMatch line with
      | some bname =>
        have hstep : materialLineStep g s i line = .err .nameErrMaterialName := by
          unfold materialLineStep
          rw [hmt, hbt, hmn]
        rw [hstep] at h
        cases h
      | none =>
        rw [step_inert g s i line hin hmt hbt] at h
        have := ih (i + 1) s s' e hin hb hmn h
        rw [this]
        cases hfx : firstMatIdx ls with
        | none => simp [firstMatIdx, hmt, hfx]
        | some x =>
          simp [firstMatIdx, hmt, hfx]
          try omega

theorem scan_permissive_end (lines : List Line) :
    ∀ (i : Nat) (s s' : MScan) (e : Nat),
      scanLines false i s lines = .ok (s', e) → e = i + lines.length - 1 := by
  induction lines with
  | nil =>
    intro i s s' e h
    rw [scanLines] at h
    cases h
    rfl
  | cons line ls ih =>
    intro i s s' e h
    rw [scanLines] at h
    cases hstep : materialLineStep false s i line with
    | err e2 => rw [hstep] at h; cases h
    | brk s2 e2 =>
      exact absurd (step_brk_inv false s s2 i e2 line hstep).2.2.2 (by simp)
    | cont s2 =>
      rw [hstep] at h
      have := ih (i + 1) s2 s' e h
      rw [this]
      simp [List.length_cons]

theorem scan_inert (g : Bool) (lines : List Line) :
    ∀ (i : Nat) (s : MScan), s.in_material = false →
      (∀ l ∈ lines, materialMatch l = none ∧ behaviorMatch l = none) →
      scanLines g i s lines = .ok (s, i + lines.length - 1) := by
  induction lines with
  | nil => intro i s _ _; rfl
  | cons line ls ih =>
    intro i s hin hl
    rw [scanLines_cons_cont g i s s line ls
      (step_inert g s i line hin (hl line (by simp)).1 (hl line (by simp)).2)]
    rw [ih (i + 1) s hin (fun x hx => hl x (by simp [hx]))]
    have : i + 1 + ls.length - 1 = i + (line :: ls).length - 1 := by
      simp [List.length_cons]
    rw [this]

theorem scaleCoords_map (factor : Dec) (coords : List (List Char))
    (h : ∀ c ∈ coords, (parseDec c).isSome = true) :
    scaleCoords factor coords =
      (coords.map (fun c => ' ' :: pyFloatStr (Dec.mul ((parseDec c).getD ⟨0, 0⟩) factor)),
       true) := by
  induction coords with
  | nil => rfl
  | cons c cs ih =>
    have hc : (parseDec c).isSome = true := h c (by simp)
    obtain ⟨q, hq⟩ := Option.isSome_iff_exists.mp hc
    rw [scaleCoords, hq, ih (fun x hx => h x (by simp [hx]))]
    simp [hq]

theorem read_ok_inv (m0 : Material) (f : String) (lines : List Line)
    (m' : Material) (h : Material.read m0 f lines = (m', none)) :
    m'.stRead = true ∧ m'.inp_file = f := by
  unfold Material.read at h
  repeat' split at h
  all_goals simp_all
  all_goals (rw [← h]; exact ⟨rfl, rfl⟩)

theorem read_ok_scan (m0 : Material) (f : String) (lines : List Line)
    (m' : Material) (h : Material.read m0 f lines = (m', none)) :
    ∃ (s : MScan) (e b : Nat),
      scanLines m0.is_greedy 0 MScan.start lines = .ok (s, e) ∧
      s.beginIdx = some b ∧
      m' = { m0 with inp_file := f, materials := s.materials,
                     stBegin := some b, stEnd := some e, stRead := true } := by
  unfold Material.read at h
  split at h
  · simp at h
  · split at h
    · simp at h
    · cases hscan : scanLines m0.is_greedy 0 MScan.start lines with
      | error e2 => rw [hscan] at h; simp at h
      | ok p =>
        obtain ⟨s, e⟩ := p
        rw [hscan] at h
        simp only [] at h
        cases hbg : s.beginIdx with
        | none => rw [hbg] at h; simp at h
        | some b =>
          rw [hbg] at h
          simp at h
          exact ⟨s, e, b, rfl, hbg, h.symm⟩

theorem firstMatIdx_lt (lines : List Line) :
    ∀ j, firstMatIdx lines = some j → j < lines.length := by
  induction lines with
  | nil => intro j h; simp [firstMatIdx] at h
  | cons l ls ih =>
    intro j h
    rw [firstMatIdx] at h
    by_cases hm : (materialMatch l).isSome = true
    · rw [if_pos hm] at h
      cases h
      simp
    · rw [if_neg hm] at h
      cases hfx : firstMatIdx ls with
      | none => rw [hfx] at h; simp at h
      | some x =>
        rw [hfx] at h
        simp at h
        have := ih x hfx
        simp [← h]
        omega

theorem read_ok_begin_lt (m0 : Material) (f : String) (lines : List Line)
    (m' : Material) (b : Nat) (h : Material.read m0 f lines = (m', none))
    (hb : m'.stBegin = some b) : b < lines.length := by
  obtain ⟨s, e, b2, hscan, hbg, hm⟩ := read_ok_scan m0 f lines m' h
  rw [hm] at hb
  simp at hb
  have h1 := scan_fresh_begin m0.is_greedy lines 0 MScan.start s e rfl rfl rfl hscan
  rw [hbg, hb] at h1
  cases hfx : firstMatIdx lines with
  | none => rw [hfx] at h1; simp at h1
  | some j =>
    rw [hfx] at h1
    simp at h1
    rw [h1]
    exact firstMatIdx_lt lines j hfx

/-- Concrete strict-mode demonstration file: a material block followed by a
foreign keyword line. -/
def demoLines : List Line :=
  ["*Material, name=A\n".data, "*Elastic\n".data, "1,0.3\n".data, "*Step\n".data]

/-- The hierarchy extracted from `demoLines`. -/
def demoHier : Materials :=
  [("A".data, [("Elastic".data, [[['1'], "0.3".data]])])]

/-- The instance state after a strict-mode read of `demoLines`. -/
def demoInst : Material :=
  { inp_file := "f.inp", stBegin := some 0, stEnd := some 2, stRead := true,
    materials := demoHier, is_greedy := true }

/-- The scan state when the strict-mode scan of `demoLines` stops. -/
def demoScan : MScan :=
  ⟨true, demoHier, some "A".data, some "Elastic".data, some 0⟩

/-- The hierarchy a permissive-mode read extracts from `demoLines` plus a
trailing `...` line: the junk line is absorbed as a parameter row. -/
def permHier : Materials :=
  [("A".data, [("Elastic".data, [[['1'], "0.3".data], ["...".data]])])]

/-- The final scan state of the permissive-mode scan of `demoLines ++
["...\n"]`. -/
def permScanSt : MScan :=
  ⟨true, permHier, some "A".data, some "Elastic".data, some 0⟩

/-- The instance state after a permissive-mode read of `demoLines`. -/
def permReadInst : Material :=
  { inp_file := "f.inp", stBegin := some 0, stEnd := some 3, stRead := true,
    materials := demoHier, is_greedy := false }

/-- C1: strict-mode block location.  Scanning with a zero-based index,
(1) a successful scan from fresh state records `begin` as the index of the
first line matching the material-start pattern; (2) in strict mode a
keyword-line or comment-line met while inside the block stops the scan
with `end = index - 1` and the unchanged state; (3) when the loop runs off
the end of the input, `end` is the index of the last line processed
(`i - 1` when the empty suffix is reached at index `i`); (4) in
particular, on `["*Material, name=A\n", "*Elastic\n", "1,0.3\n",
"*Step\n"]` plus any unread remainder, a strict-mode read returns
`begin = 0` and `end = 2`. -/
theorem C1_strict_block_location :
    (∀ (is_greedy : Bool) (lines : List Line) (s' : MScan) (e : Nat),
      scanLines is_greedy 0 MScan.start lines = .ok (s', e) →
      s'.beginIdx = firstMatIdx lines) ∧
    (∀ (s : MScan) (i : Nat) (line : Line),
      s.in_material = true → materialMatch line = none →
      behaviorMatch line = none → (kwMatch line || commentMatch line) = true →
      materialLineStep true s i line = .brk s (i - 1)) ∧
    (∀ (is_greedy : Bool) (i : Nat) (s : MScan),
      scanLines is_greedy i s [] = .ok (s, i - 1)) ∧
    (∀ rest : List Line,
      Material.read (Material.init true) "f.inp" (demoLines ++ rest) =
        (demoInst, none)) := by
  refine ⟨?_, ?_, ?_, ?_⟩
  · intro g lines s' e h
    have := scan_fresh_begin g lines 0 MScan.start s' e rfl rfl rfl h
    rw [this]
    cases firstMatIdx lines <;> simp
  · intro s i line hin hmt hbt hkc
    unfold materialLineStep
    rw [hmt, hbt, hin]
    rcases (Bool.or_eq_true _ _).mp hkc with hk | hc
    · rw [hk]; simp
    · rw [hc]; simp
  · intro g i s
    rfl
  · intro rest
    rfl

theorem C1_strict_block_location_witness :
    demoScan.beginIdx = firstMatIdx demoLines ∧
    materialLineStep true demoScan 3 ("*Step\n".data) = .brk demoScan 2 ∧
    scanLines true 4 demoScan [] = .ok (demoScan, 3) ∧
    Material.read (Material.init true) "f.inp" (demoLines ++ ["...\n".data]) =
      (demoInst, none) := by
  refine ⟨?_, ?_, ?_, ?_⟩
  · exact C1_strict_block_location.1 true demoLines demoScan 2 rfl
  · exact C1_strict_block_location.2.1 demoScan 3 ("*Step\n".data) rfl
      (by decide) (by decide) (by decide)
  · exact C1_strict_block_location.2.2.1 true 4 demoScan
  · exact C1_strict_block_location.2.2.2 ["...\n".data]

/-- C2: splice equation.  A read-backed write emits exactly
`original_lines[0:begin] ++ serialized_block ++ original_lines[end+1:]`,
and the static remove emits `original_lines[0:begin] ++
original_lines[end+1:]` for the range its own fresh permissive read
records. -/
theorem C2_splice_equation :
    (∀ (m : Material) (old : List Line) (b e : Nat),
      m.materials ≠ [] → m.stRead = true →
      m.stBegin = some b → m.stEnd = some e →
      Material.write m old =
        .ok (old.take b ++ formatBlock m.materials ++ old.drop (e + 1))) ∧
    (∀ (f : String) (lines : List Line) (a : Material) (b e : Nat),
      Material.read (Material.init false) f lines = (a, none) →
      a.stBegin = some b → a.stEnd = some e →
      Material.remove f lines = .ok (lines.take b ++ lines.drop (e + 1))) := by
  constructor
  · intro m old b e hne hr hb he
    simp [Material.write, hne, hr, hb, he]
  · intro f lines a b e hread hb he
    unfold Material.remove
    rw [hread]
    simp only [] at *
    rw [hb, he]

theorem C2_splice_equation_witness :
    Material.write demoInst demoLines =
      .ok (demoLines.take 0 ++ formatBlock demoInst.materials ++ demoLines.drop 3) ∧
    Material.remove "f.inp" demoLines =
      .ok (demoLines.take 0 ++ demoLines.drop 4) := by
  constructor
  · exact C2_splice_equation.1 demoInst demoLines 0 2 (by decide) rfl rfl rfl
  · exact C2_splice_equation.2 "f.inp" demoLines permReadInst 0 3 rfl rfl rfl

/-- C3: the serializer emits, per material in insertion order, one
`*Material, name=<name>` line, one `*<BehaviorName>` line per behavior and
one comma-joined line per row (the shape made explicit by
`serializeSpec`), and returns the empty sequence on the empty hierarchy.
It is a pure Lean function of the hierarchy, hence deterministic and free
of I/O. -/
theorem C3_serializer :
    (∀ materials : Materials, formatBlock materials = serializeSpec materials) ∧
    formatBlock [] = [] :=
  ⟨formatBlock_eq_serializeSpec, rfl⟩

/-- C5 counterexample: in permissive mode (`from_Abaqus=False`) the
locator does not stop at the keyword line `*Step` (index 3): on the
claim's five-line input it records `end = 4` (the last line of the file),
not `end = 2` as the strict-mode termination rule would give. -/
theorem C5_permissive_counterexample :
    (Material.read (Material.init false) "f.inp"
      (demoLines ++ ["...\n".data])).1.stEnd = some 4 ∧
    (Material.read (Material.init false) "f.inp"
      (demoLines ++ ["...\n".data])).1.stEnd ≠ some 2 := by
  constructor
  · rfl
  · decide

/-- C5 amended: in permissive mode the early-stop branch never fires — the
loop body never breaks — so every successful scan runs to end of file and
records `end` as the index of the last line of the file. -/
theorem C5_permissive_amended :
    (∀ (s : MScan) (i : Nat) (line : Line) (s' : MScan) (e : Nat),
      materialLineStep false s i line ≠ .brk s' e) ∧
    (∀ (lines : List Line) (i : Nat) (s s' : MScan) (e : Nat),
      scanLines false i s lines = .ok (s', e) → e = i + lines.length - 1) := by
  constructor
  · intro s i line s' e h
    exact absurd (step_brk_inv false s s' i e line h).2.2.2 (by simp)
  · exact fun lines i s s' e h => scan_permissive_end lines i s s' e h

theorem C5_permissive_amended_witness :
    (4 : Nat) = 0 + (demoLines ++ ["...\n".data]).length - 1 :=
  C5_permissive_amended.2 (demoLines ++ ["...\n".data]) 0 MScan.start
    permScanSt 4 rfl

/-- C6 counterexample to read atomicity: an instance populated by
`add_material` (hierarchy `[("X", {})]`, not yet read) that reads a valid
file containing no material-start line raises (`NameError` on `begin`) but
has its hierarchy overwritten by the scan's empty dict before the raise. -/
theorem C6_atomicity_counterexample :
    (Material.read ((Material.init false).add_material "X".data) "f.inp"
      ["*Step\n".data]).2 = some .nameErrBeginVar ∧
    (Material.read ((Material.init false).add_material "X".data) "f.inp"
      ["*Step\n".data]).1.materials ≠
      ((Material.init false).add_material "X".data).materials := by
  constructor
  · rfl
  · decide

/-- C6 amended: the re-read guard holds — a second read on a populated
instance fails with `AlreadyPopulated` and changes nothing — and a read
failing during validation or scanning also leaves the instance unchanged;
but a scan that completes without a material-start line commits
`inp_file` and `materials` before raising, so read is not atomic in
general. -/
theorem C6_reread_guard_amended :
    (∀ (m : Material) (f : String) (lines : List Line), m.stRead = true →
      Material.read m f lines = (m, some .alreadyPopulated)) ∧
    (∀ (m : Material) (f : String) (lines : List Line) (e : ReadErr),
      m.stRead = false → lines ≠ [] →
      scanLines m.is_greedy 0 MScan.start lines = .error e →
      Material.read m f lines = (m, some e)) ∧
    (∀ (m : Material) (f : String) (lines : List Line) (s : MScan) (e : Nat),
      m.stRead = false → lines ≠ [] →
      scanLines m.is_greedy 0 MScan.start lines = .ok (s, e) →
      s.beginIdx = none →
      Material.read m f lines =
        ({ m with inp_file := f, materials := s.materials },
         some .nameErrBeginVar)) := by
  refine ⟨?_, ?_, ?_⟩
  · intro m f lines h
    simp [Material.read, h]
  · intro m f lines e h1 h2 h3
    simp [Material.read, h1, h2, h3]
  · intro m f lines s e h1 h2 h3 h4
    simp [Material.read, h1, h2, h3, h4]

theorem C6_reread_guard_amended_witness :
    Material.read demoInst "g.inp" [] = (demoInst, some .alreadyPopulated) :=
  C6_reread_guard_amended.1 demoInst "g.inp" [] rfl

/-- C7: empty-write guard — writing from an instance with an empty
hierarchy, in particular any freshly constructed instance, fails with
`EmptyDatabase` and emits nothing. -/
theorem C7_empty_write_guard :
    (∀ (m : Material) (old : List Line), m.materials = [] →
      Material.write m old = .error .emptyDatabase) ∧
    (∀ (from_Abaqus : Bool) (old : List Line),
      Material.write (Material.init from_Abaqus) old =
        .error .emptyDatabase) := by
  constructor
  · intro m old h
    simp [Material.write, h]
  · intro g old
    rfl

theorem C7_empty_write_guard_witness :
    Material.write (Material.init true) [] = .error .emptyDatabase :=
  C7_empty_write_guard.1 (Material.init true) [] rfl

/-- C4: round-trip identity.  For a well-formed input file (one whose
successful read yields a round-trip-safe hierarchy), writing with no
intervening mutation produces `take begin ++ serialized block ++ drop
(end+1)`; the lines before and after the block in the output are
byte-identical to the original's, and re-extracting the serialized block
(in either mode) recovers exactly the hierarchy that was read — the same
materials, behaviors and row field values. -/
theorem C4_round_trip (m0 m' : Material) (f : String) (lines : List Line)
    (b e : Nat) (hread : Material.read m0 f lines = (m', none))
    (hb : m'.stBegin = some b) (he : m'.stEnd = some e)
    (hne : m'.materials ≠ []) (hwf : WFhier m'.materials) :
    Material.write m' lines =
      .ok (lines.take b ++ formatBlock m'.materials ++ lines.drop (e + 1)) ∧
    (lines.take b ++ formatBlock m'.materials ++ lines.drop (e + 1)).take b =
      lines.take b ∧
    (lines.take b ++ formatBlock m'.materials ++ lines.drop (e + 1)).drop
        (b + (formatBlock m'.materials).length) = lines.drop (e + 1) ∧
    (∀ is_greedy : Bool,
      blockExtract is_greedy (formatBlock m'.materials) = .ok m'.materials) := by
  have hrd := (read_ok_inv m0 f lines m' hread).1
  have hbl : b < lines.length := read_ok_begin_lt m0 f lines m' b hread hb
  have hlen : (lines.take b).length = b := by
    rw [List.length_take]
    exact Nat.min_eq_left (le_of_lt hbl)
  refine ⟨?_, ?_, ?_, ?_⟩
  · simp [Material.write, hne, hrd, hb, he]
  · rw [List.take_append_eq_append_take, List.take_append_eq_append_take,
      List.take_take, Nat.min_self, List.length_append, hlen,
      Nat.sub_self, List.take_zero]
    have h0 : b - (b + (formatBlock m'.materials).length) = 0 := by omega
    rw [h0, List.take_zero]
    simp
  · have hA : (lines.take b).length ≤ b + (formatBlock m'.materials).length := by
      rw [hlen]
      exact Nat.le_add_right b _
    rw [List.drop_append_eq_append_drop, List.drop_append_eq_append_drop,
      List.length_append, hlen, List.drop_eq_nil_of_le hA]
    have h1 : b + (formatBlock m'.materials).length - b =
        (formatBlock m'.materials).length := by omega
    have h2 : b + (formatBlock m'.materials).length -
        (b + (formatBlock m'.materials).length) = 0 := by omega
    rw [h1, h2, List.drop_length, List.drop_zero]
    simp
  · intro g
    rw [formatBlock_eq_serializeSpec]
    exact blockExtract_serializeSpec m'.materials hwf g

theorem C4_round_trip_witness :
    Material.write demoInst demoLines =
      .ok (demoLines.take 0 ++ formatBlock demoInst.materials ++ demoLines.drop 3) ∧
    (∀ is_greedy : Bool,
      blockExtract is_greedy (formatBlock demoInst.materials) =
        .ok demoInst.materials) := by
  have h := C4_round_trip (Material.init true) demoInst "f.inp" demoLines 0 2
    rfl rfl rfl (by decide) (by decide)
  exact ⟨h.1, h.2.2.2⟩

/-- C8: node scaling.  With no nodes loaded, `scale` fails with
`EmptyGeometry`; on a row whose coordinates all parse, field 0 (the node
identifier) is untouched and every field at index >= 1 becomes a space
followed by the text of the parsed value times the factor; in particular
rows `[["1","1.0","2.0"],["2","3.0","4.0"]]` scaled by 2.0 become
`[["1"," 2.0"," 4.0"],["2"," 6.0"," 8.0"]]`. -/
theorem C8_node_scaling :
    (∀ (g : Geometry) (factor : Dec), g.nodes = [] →
      Geometry.scale g factor = (g, some .emptyGeometry)) ∧
    (∀ (factor : Dec) (n0 : List Char) (coords : List (List Char)),
      (∀ c ∈ coords, (parseDec c).isSome = true) →
      scaleRow factor (n0 :: coords) =
        (n0 :: coords.map
          (fun c => ' ' :: pyFloatStr (Dec.mul ((parseDec c).getD ⟨0, 0⟩) factor)),
         true)) ∧
    Geometry.scale
        { Geometry.init with
          nodes := [[['1'], "1.0".data, "2.0".data], [['2'], "3.0".data, "4.0".data]] }
        ⟨2, 0⟩ =
      ({ Geometry.init with
         nodes := [[['1'], " 2.0".data, " 4.0".data], [['2'], " 6.0".data, " 8.0".data]] },
       none) := by
  refine ⟨?_, ?_, ?_⟩
  · intro g factor h
    simp [Geometry.scale, h]
  · intro factor n0 coords h
    simp [scaleRow, scaleCoords_map factor coords h]
  · decide

theorem C8_node_scaling_witness :
    Geometry.scale Geometry.init ⟨2, 0⟩ = (Geometry.init, some .emptyGeometry) ∧
    scaleRow ⟨2, 0⟩ [['1'], "1.0".data] = ([['1'], " 2.0".data], true) := by
  constructor
  · exact C8_node_scaling.1 Geometry.init ⟨2, 0⟩ rfl
  · exact (C8_node_scaling.2.1 ⟨2, 0⟩ ['1'] ["1.0".data] (by decide)).trans
      (by decide)

/-- C9 counterexample: on a valid nonempty file with no material-start
line, `Material.read` does raise (`NameError` on the unbound `begin`),
but the instance's source path does not remain as it was: `self.inp_file`
is assigned before the raising statement. -/
theorem C9_no_material_counterexample :
    (Material.read (Material.init true) "f.inp" ["*Step\n".data]).2 =
      some .nameErrBeginVar ∧
    (Material.read (Material.init true) "f.inp" ["*Step\n".data]).1.inp_file ≠
      (Material.init true).inp_file := by
  constructor
  · rfl
  · decide

/-- C9 amended: on a valid nonempty file none of whose lines match the
material-start or behavior patterns, read on a fresh instance raises
`NameError` on `begin`; the `state` record (`begin`, `end`, `read`) and
the (empty) hierarchy keep their initial values, but `inp_file` is
reassigned to the new path before the raise. -/
theorem C9_no_material_amended :
    ∀ (from_Abaqus : Bool) (f : String) (lines : List Line),
      lines ≠ [] →
      (∀ l ∈ lines, materialMatch l = none ∧ behaviorMatch l = none) →
      Material.read (Material.init from_Abaqus) f lines =
        ({ Material.init from_Abaqus with inp_file := f },
         some .nameErrBeginVar) := by
  intro g f lines hne hl
  have hscan := scan_inert g lines 0 MScan.start rfl hl
  simp [Material.read, Material.init, hne, hscan]
  rfl

theorem C9_no_material_amended_witness :
    Material.read (Material.init false) "h.inp"
      ["*Heading\n".data, "** comment\n".data, "1,2\n".data] =
      ({ Material.init false with inp_file := "h.inp" },
       some .nameErrBeginVar) :=
  C9_no_material_amended false "h.inp" _ (by decide) (by decide)

/-- C10: the nodes-variant locator has no mode flag.  The loop body breaks
exactly when the scan is inside the node block and meets a line that is a
keyword-line or comment-line but not a node-start line, recording
`end = index - 1` — with no greedy-mode conjunct (no `Geometry`
constructor argument can disable it).  A read demonstrates the stop:
lines after the terminating keyword are never read. -/
theorem C10_node_locator_unconditional :
    (∀ (s : GScan) (i : Nat) (line : Line),
      geometryLineStep s i line = .brk s (i - 1) ↔
        (s.in_node = true ∧ nodeMatch line = false ∧
         (kwMatch line || commentMatch line) = true)) ∧
    (∀ rest : List Line,
      Geometry.read Geometry.init "n.inp"
        (["*NODE\n".data, "1, 0.0, 1.0\n".data, "*ELEMENT, type=CPS3\n".data]
          ++ rest) =
      ({ inp_file := "n.inp", stBegin := some 0, stEnd := some 1,
         stRead := true, nodes := [[['1'], " 0.0".data, " 1.0".data]] },
       none)) := by
  constructor
  · intro s i line
    constructor
    · intro h
      unfold geometryLineStep at h
      simp only [] at h
      repeat' split at h
      all_goals simp_all [Bool.and_eq_true]
    · rintro ⟨hin, hnm, hkc⟩
      unfold geometryLineStep
      rw [hnm, hin]
      rcases (Bool.or_eq_true _ _).mp hkc with hk | hc
      · rw [hk]; simp
      · rw [hc]; simp
  · intro rest
    rfl

theorem C10_node_locator_unconditional_witness :
    geometryLineStep ⟨true, [[['1'], " 0.0".data, " 1.0".data]], some 0⟩ 5
        ("*ELEMENT, type=CPS3\n".data) =
      .brk ⟨true, [[['1'], " 0.0".data, " 1.0".data]], some 0⟩ 4 ∧
    Geometry.read Geometry.init "n.inp"
        ["*NODE\n".data, "1, 0.0, 1.0\n".data, "*ELEMENT, type=CPS3\n".data] =
      ({ inp_file := "n.inp", stBegin := some 0, stEnd := some 1,
         stRead := true, nodes := [[['1'], " 0.0".data, " 1.0".data]] },
       none) := by
  constructor
  · exact (C10_node_locator_unconditional.1
      ⟨true, [[['1'], " 0.0".data, " 1.0".data]], some 0⟩ 5
      ("*ELEMENT, type=CPS3\n".data)).mpr (by decide)
  · have h := C10_node_locator_unconditional.2 []
    simpa using h

end Abaqus
